import Mathlib

/-!
Verification of the maxapi event-dispatch core.

Strings are embedded as `List Char`.  The only repository source file under
verification that ships code (rather than tests) is `maxapi/utils/commands.py`;
its two functions `extract_commands` and `get_handler_info` are embedded below
from that source.  The Dispatcher / Router / context-store / filter-chain /
middleware code is exercised only through its tests, so those operations are
modelled from the specification text (see the doc comments starting
`Modelled from the spec:`).
-/

namespace MaxApi

/-- Python `\s` on the characters occurring in this code base:
space, tab, newline, carriage return, vertical tab, form feed. -/
def isPySpace (c : Char) : Bool :=
  c = ' ' || c = '\t' || c = '\n' || c = '\r' || c = '\x0b' || c = '\x0c'

/-- Python `str.strip()` from the left. -/
def trimLeft (l : List Char) : List Char := l.dropWhile isPySpace

/-- Python `str.strip()` from the right. -/
def trimRight (l : List Char) : List Char := (l.reverse.dropWhile isPySpace).reverse

/-- Python `str.strip()`: surrounding whitespace removed. -/
def pyStrip (l : List Char) : List Char := trimRight (trimLeft l)

/-- Whether `needle` is an initial segment of the second argument. -/
def beginsWith : List Char → List Char → Bool
  | [], _ => true
  | _ :: _, [] => false
  | p :: ps, c :: cs => if p = c then beginsWith ps cs else false

/-- Whether `needle` occurs as a contiguous substring. -/
def occursIn (needle : List Char) : List Char → Bool
  | [] => false
  | c :: cs => beginsWith needle (c :: cs) || occursIn needle cs

/-- Model of `re.search` for a pattern starting with the literal `needle`:
returns the text after the first (leftmost) occurrence of `needle`. -/
def findAfter (needle : List Char) : List Char → Option (List Char)
  | [] => none
  | c :: cs =>
    if beginsWith needle (c :: cs) then some (List.drop needle.length (c :: cs))
    else findAfter needle cs

/-- The literal part of `COMMANDS_INFO_PATTERN = r"commands_info:\s*(.*?)(?=\n|$)"`. -/
def labelChars : List Char := "commands_info:".toList

/-- The label without its final colon, used to phrase the condition that a
docstring position holds the first occurrence of the label. -/
def labelInit : List Char := "commands_info".toList

/-- The `commands` attribute an arbitrary base filter may carry
(`getattr(base_filter, "commands", None)` in the source): it may be absent
(`getattr` yields `None`), present but not a `list` (with some truthiness), or
an actual `list` of command strings. -/
inductive CmdAttr where
  | absent : CmdAttr
  | nonList (truthy : Bool) : CmdAttr
  | listOf (cmds : List (List Char)) : CmdAttr
deriving DecidableEq, Repr

/-- A base filter, as seen by `extract_commands`: only its optional
`commands` attribute matters there. -/
structure BaseFilter where
  commands : CmdAttr
deriving DecidableEq, Repr

/-- A handler, as seen by `extract_commands` / `get_handler_info`:
`base_filters` (which the source guards against being `None`) and the
callback docstring `func_event.__doc__` (`None` models a missing docstring). -/
structure Handler where
  base_filters : Option (List BaseFilter)
  doc : Option (List Char)
deriving DecidableEq, Repr

/-- One entry of the bot's command registry (`CommandsInfo`). -/
structure CommandsInfo where
  commands : List (List Char)
  info : Option (List Char)
deriving DecidableEq, Repr

/-- The bot, as seen by this core: the append-only command registry plus the
flags and data the readiness sequence consults. -/
structure Bot where
  commands : List CommandsInfo
  auto_check_subscriptions : Bool
  subscriptions : List (List Char)
deriving DecidableEq, Repr

/-- Python truthiness of the `commands` attribute value. -/
def cmdTruthy : CmdAttr → Bool
  | CmdAttr.absent => false
  | CmdAttr.nonList t => t
  | CmdAttr.listOf cs => !cs.isEmpty

/-- Python `isinstance(commands, list)`. -/
def cmdIsList : CmdAttr → Bool
  | CmdAttr.listOf _ => true
  | _ => false

/-- The underlying list of a `list`-valued `commands` attribute. -/
def cmdList : CmdAttr → List (List Char)
  | CmdAttr.listOf cs => cs
  | _ => []

/-- Embedding of `get_handler_info` from `maxapi/utils/commands.py`: scan the callback
docstring for the first occurrence of `commands_info:`; the regex then
greedily skips whitespace (`\s*`, which may cross newlines) and lazily
captures up to the next newline or the end of the string; the capture is
stripped, and an empty result collapses to `None`. -/
def get_handler_info (handler : Handler) : Option (List Char) :=
  match handler.doc with
  | none => none
  | some d =>
    if d = [] then none
    else
      match findAfter labelChars d with
      | none => none
      | some rest =>
        let info := pyStrip (List.takeWhile (fun c => !(c = '\n')) (List.dropWhile isPySpace rest))
        if info = [] then none else some info

/-- One iteration of the loop body of `extract_commands`: append a
`CommandsInfo` entry when the filter's `commands` attribute is truthy and a
`list`. -/
def appendIfCommand (info : Option (List Char)) (b : Bot) (f : BaseFilter) : Bot :=
  if cmdTruthy f.commands && cmdIsList f.commands then
    { b with commands := b.commands ++ [CommandsInfo.mk (cmdList f.commands) info] }
  else b

/-- Embedding of `extract_commands` from `maxapi/utils/commands.py`: return unchanged when
`handler.base_filters is None`, else compute the handler info once and loop
over the base filters appending one registry entry per command-bearing
filter. -/
def extract_commands (handler : Handler) (bot : Bot) : Bot :=
  match handler.base_filters with
  | none => bot
  | some fs => fs.foldl (appendIfCommand (get_handler_info handler)) bot

/-- A filter contributes a registry entry exactly when its `commands`
attribute is a non-empty `list` (specification-side predicate). -/
def isCommandFilter (f : BaseFilter) : Bool :=
  match f.commands with
  | CmdAttr.listOf cs => !cs.isEmpty
  | _ => false

/-- The registry entries one handler contributes, in filter order
(specification-side recomputation of what `extract_commands` appends). -/
def commandsOfHandler (h : Handler) : List CommandsInfo :=
  match h.base_filters with
  | none => []
  | some fs =>
    (fs.filter isCommandFilter).map
      (fun f => CommandsInfo.mk (cmdList f.commands) (get_handler_info h))

/-- Generalized concatenation of per-element blocks, used to state traversal
order of command extraction. -/
def catMap {α β : Type} (f : α → List β) : List α → List β
  | [] => []
  | a :: rest => f a ++ catMap f rest

/-- Modelled from the spec: a child `Router` (the Router class itself is not
under src/, only its tests): an optional identity and an ordered handler
list.  The client back-reference it receives during readiness carries no
information relevant to the claims, so it is not tracked. -/
structure Router where
  router_id : Option (List Char)
  event_handlers : List Handler
deriving DecidableEq, Repr

/-- An element of the Dispatcher's router collection: either a child router
or the Dispatcher itself (which readiness appends to its own collection). -/
inductive RouterEntry where
  | child (r : Router) : RouterEntry
  | selfRef : RouterEntry
deriving DecidableEq, Repr

/-- Modelled from the spec: the `Dispatcher` state readiness manipulates
(the Dispatcher class is not under src/, only its tests): its own handler
list, its router collection, and the polling flag. -/
structure Dispatcher where
  event_handlers : List Handler
  routers : List RouterEntry
  polling : Bool
deriving DecidableEq, Repr

/-- The handlers owned by one entry of the router collection. -/
def entryHandlers (dp : Dispatcher) : RouterEntry → List Handler
  | RouterEntry.child r => r.event_handlers
  | RouterEntry.selfRef => dp.event_handlers

/-- Modelled from the spec: `Dispatcher._prepare_handlers` (not under src/,
only its tests): walk every router's handlers in router-then-handler order
and run `extract_commands` on each, appending to the client's command
list. -/
def prepare_handlers (dp : Dispatcher) (bot : Bot) : Bot :=
  dp.routers.foldl
    (fun b e => (entryHandlers dp e).foldl (fun b2 h => extract_commands h b2) b) bot

/-- Modelled from the spec: `Dispatcher._check_subscriptions` (not under
src/, only its tests): query active push subscriptions; when at least one
exists, emit one warning listing the subscription URLs (modelled as the
`", "`-joined URL list); otherwise emit nothing. -/
def check_subscriptions_warnings (bot : Bot) : List (List Char) :=
  if bot.subscriptions.isEmpty then []
  else [List.intercalate (", ".toList) bot.subscriptions]

/-- The observable effects of one readiness run beyond the state change:
whether the subscription query ran, and the warnings it emitted. -/
structure ReadyLog where
  subsChecked : Bool
  warnings : List (List Char)
deriving DecidableEq, Repr

/-- Modelled from the spec: `Dispatcher.__ready` (not under src/, only its
tests): append the Dispatcher to its own router collection (the observed
behavior appends unconditionally), walk all routers extracting commands,
and run the subscription check exactly when polling is enabled and the
client's auto-subscription-checking flag is on. -/
def ready (dp : Dispatcher) (bot : Bot) : Dispatcher × Bot × ReadyLog :=
  let dp1 : Dispatcher := { dp with routers := dp.routers ++ [RouterEntry.selfRef] }
  let bot1 := prepare_handlers dp1 bot
  if dp1.polling && bot1.auto_check_subscriptions then
    (dp1, bot1, ReadyLog.mk true (check_subscriptions_warnings bot1))
  else
    (dp1, bot1, ReadyLog.mk false [])

/-- The command-registry entries one readiness run appends: one block per
router in inclusion order (the Dispatcher itself coming last, as readiness
appends it to its own collection), each block in handler registration
order (specification-side recomputation). -/
def blocksOf (dp : Dispatcher) : List CommandsInfo :=
  catMap (fun e => catMap commandsOfHandler (entryHandlers dp e))
    (dp.routers ++ [RouterEntry.selfRef])

/-- A dispatcher holding exactly one child router with exactly one handler. -/
def singleHandlerDispatcher (h : Handler) : Dispatcher :=
  Dispatcher.mk [] [RouterEntry.child (Router.mk none [h])] false

/-- The command list `["start"]` of the example in the spec. -/
def startCmd : List Char := "start".toList

/-- The handler of the spec's example: one `Command ["start"]` base filter
and a docstring carrying the line `commands_info: Запустить бота`. -/
def exHandler : Handler :=
  Handler.mk (some [BaseFilter.mk (CmdAttr.listOf [startCmd])])
    (some ("\n        ".toList ++
      (labelChars ++ (" Запустить бота".toList ++ '\n' :: "        ".toList))))

/-- A handler carrying one command filter and no docstring, used to exhibit
the readiness non-idempotence. -/
def bugHandler : Handler :=
  Handler.mk (some [BaseFilter.mk (CmdAttr.listOf ["s".toList])]) none

/-- A dispatcher owning `bugHandler` directly, with an empty router
collection. -/
def bugDispatcher : Dispatcher := Dispatcher.mk [bugHandler] [] false

/-- A bot with an empty command registry and all flags off. -/
def emptyBot : Bot := Bot.mk [] false []

/-- A per-conversation context: its identity is the (chat, user) pair. -/
structure MemoryContext where
  chat_id : Int
  user_id : Int
deriving DecidableEq, Repr

/-- The conversation key of a context. -/
def ctxKey (c : MemoryContext) : Int × Int := (c.chat_id, c.user_id)

/-- Modelled from the spec: `Dispatcher.__get_context` (not under src/, only
its tests): look the store up by the (chat, user) pair; on hit return the
stored instance and the unchanged store, on miss construct a context with
that identity, store it, and return it. -/
def get_context (contexts : List MemoryContext) (chat_id user_id : Int) :
    MemoryContext × List MemoryContext :=
  match contexts.find? (fun c => c.chat_id == chat_id && c.user_id == user_id) with
  | some c => (c, contexts)
  | none => (MemoryContext.mk chat_id user_id,
             contexts ++ [MemoryContext.mk chat_id user_id])

/-- Run a sequence of `get_context` calls from a given store, keeping the
final store. -/
def runFrom (s : List MemoryContext) : List (Int × Int) → List MemoryContext
  | [] => s
  | p :: rest => runFrom (get_context s p.1 p.2).2 rest

/-- Run a sequence of `get_context` calls from the empty store. -/
def runCalls (seq : List (Int × Int)) : List MemoryContext := runFrom [] seq

/-- The three things a filter call can produce: boolean `False`, boolean
`True`, or a mapping of extra keyword data. -/
inductive FilterResult where
  | ff : FilterResult
  | tt : FilterResult
  | data (m : List (List Char × List Char)) : FilterResult
deriving DecidableEq, Repr

/-- A Python dict of filter data, as an insertion-ordered association list
with unique keys. -/
abbrev Dict := List (List Char × List Char)

/-- Dict lookup (first matching key). -/
def dictGet : Dict → List Char → Option (List Char)
  | [], _ => none
  | p :: rest, k => if p.1 = k then some p.2 else dictGet rest k

/-- Dict assignment: replace the value in place when the key exists, else
append the new pair (Python dict insertion semantics). -/
def dictSet : Dict → List Char → List Char → Dict
  | [], k, v => [(k, v)]
  | p :: rest, k, v => if p.1 = k then (k, v) :: rest else p :: dictSet rest k v

/-- Python `dict.update`: write every pair of `m` into `d`, later pairs
overriding earlier values. -/
def dictUpdate (d m : Dict) : Dict := m.foldl (fun acc p => dictSet acc p.1 p.2) d

/-- Modelled from the spec: the loop of `process_base_filters` (not under
src/, only its tests): call each filter on the event in chain order; stop
with `False` as soon as a filter returns boolean false, treat boolean true
as matched-with-no-data, and merge each returned mapping into the
accumulated data. -/
def filters_go {E : Type} (event : E) : List (E → FilterResult) → Dict → Option Dict
  | [], d => some d
  | f :: fs, d =>
    match f event with
    | FilterResult.ff => none
    | FilterResult.tt => filters_go event fs d
    | FilterResult.data m => filters_go event fs (dictUpdate d m)

/-- Modelled from the spec: `process_base_filters` (not under src/, only its
tests): evaluate the filter chain starting from empty data; `none` models
the boolean `False` result. -/
def process_base_filters {E : Type} (event : E) (filters : List (E → FilterResult)) :
    Option Dict :=
  filters_go event filters []

/-- The mappings the filters of a chain return for an event, in chain
order. -/
def mappingsOf {E : Type} (event : E) (filters : List (E → FilterResult)) : List Dict :=
  filters.filterMap (fun f =>
    match f event with
    | FilterResult.data m => some m
    | _ => none)

/-- Left-biased choice on optional values. -/
def orO : Option (List Char) → Option (List Char) → Option (List Char)
  | some v, _ => some v
  | none, o => o

/-- Last-write-wins lookup over a sequence of mappings: the value for a key
comes from the latest mapping containing it (specification-side). -/
def lastWins : List Dict → List Char → Option (List Char)
  | [], _ => none
  | m :: ms, k => orO (lastWins ms k) (dictGet m k)

/-- One middleware registration call: via `middleware` (inner tier) or via
`outer_middleware` (outer tier). -/
inductive RegOp (α : Type) where
  | inner (m : α) : RegOp α
  | outer (m : α) : RegOp α

/-- Modelled from the spec: the two registration methods (not under src/,
only their tests): `middleware` appends to the middleware list, while
`outer_middleware` inserts at the front, so outer-registered middlewares
end up ahead of inner-registered ones. -/
def applyReg {α : Type} (s : List α) : RegOp α → List α
  | RegOp.inner m => s ++ [m]
  | RegOp.outer m => m :: s

/-- The middleware list resulting from a sequence of registration calls. -/
def registerAll {α : Type} (ops : List (RegOp α)) : List α := ops.foldl applyReg []

/-- The middlewares registered via `outer_middleware`, in call order. -/
def outersOf {α : Type} (ops : List (RegOp α)) : List α :=
  ops.filterMap (fun o =>
    match o with
    | RegOp.outer m => some m
    | _ => none)

/-- The middlewares registered via `middleware`, in call order. -/
def innersOf {α : Type} (ops : List (RegOp α)) : List α :=
  ops.filterMap (fun o =>
    match o with
    | RegOp.inner m => some m
    | _ => none)

/-- Modelled from the spec: `build_middleware_chain` (not under src/, only
its tests): the last middleware of the list wraps the handler directly and
each preceding middleware wraps the one after it, so the first middleware
of the list runs outermost. -/
def build_middleware_chain {D : Type} (mws : List ((D → D) → D → D)) (handler : D → D) :
    D → D :=
  mws.foldr (fun m next => m next) handler

/-- A tracing middleware: records its label, then continues the chain. -/
def traceMW (i : Nat) : (List Nat → List Nat) → List Nat → List Nat :=
  fun next d => next (d ++ [i])

/-- A tracing terminal handler: records the label 999. -/
def traceHandler : List Nat → List Nat := fun d => d ++ [999]

/-- A concrete filter chain over a trivial event type: a mapping-returning
filter, a boolean-true filter, and a second mapping overriding key "b". -/
def fsW : List (Unit → FilterResult) :=
  [fun _ => FilterResult.data [("a".toList, "1".toList), ("b".toList, "1".toList)],
   fun _ => FilterResult.tt,
   fun _ => FilterResult.data [("b".toList, "2".toList)]]

lemma cond_eq_isCommandFilter (f : BaseFilter) :
    (cmdTruthy f.commands && cmdIsList f.commands) = isCommandFilter f := by
  rcases f with ⟨c⟩
  cases c with
  | absent => rfl
  | nonList t => cases t <;> rfl
  | listOf cs => simp [cmdTruthy, cmdIsList, isCommandFilter]

lemma foldl_appendIfCommand (h : Handler) (fs : List BaseFilter) (b : Bot) :
    fs.foldl (appendIfCommand (get_handler_info h)) b =
      { b with commands := b.commands ++
          ((fs.filter isCommandFilter).map
            (fun f => CommandsInfo.mk (cmdList f.commands) (get_handler_info h))) } := by
  induction fs generalizing b with
  | nil => simp
  | cons f rest ih =>
    rw [List.foldl_cons, ih]
    unfold appendIfCommand
    rw [cond_eq_isCommandFilter, List.filter_cons]
    by_cases hf : isCommandFilter f
    · simp [hf]
    · simp [hf]

/-- Running `extract_commands` only appends the handler's entries to the registry. -/
lemma extract_commands_eq (h : Handler) (b : Bot) :
    extract_commands h b = { b with commands := b.commands ++ commandsOfHandler h } := by
  unfold extract_commands commandsOfHandler
  cases hbf : h.base_filters with
  | none => simp
  | some fs => exact foldl_appendIfCommand h fs b

/-- Claim C9: when `handler.base_filters` is `None`, `extract_commands`
returns immediately (it is total, being a Lean function) and leaves the
bot's command registry — and the whole bot — unchanged. -/
theorem extract_commands_base_filters_none_noop (bot : Bot) (h : Handler)
    (hbf : h.base_filters = none) : extract_commands h bot = bot := by
  unfold extract_commands
  rw [hbf]

/-- Concrete run of `extract_commands_base_filters_none_noop`. -/
theorem extract_commands_base_filters_none_noop_witness :
    extract_commands (Handler.mk none none) (Bot.mk [] false []) = Bot.mk [] false [] :=
  extract_commands_base_filters_none_noop (Bot.mk [] false []) (Handler.mk none none) rfl

/-- Claim C8: a handler with no base filters (an empty filter list) and no
docstring contributes no command-registry entry: `extract_commands` leaves
the bot unchanged. -/
theorem extract_commands_no_filters_no_doc_noop (bot : Bot) (h : Handler)
    (hbf : h.base_filters = some []) (hdoc : h.doc = none) :
    extract_commands h bot = bot := by
  unfold extract_commands
  rw [hbf]
  rfl

/-- Concrete run of `extract_commands_no_filters_no_doc_noop`. -/
theorem extract_commands_no_filters_no_doc_noop_witness :
    extract_commands (Handler.mk (some []) none) (Bot.mk [] false []) = Bot.mk [] false [] :=
  extract_commands_no_filters_no_doc_noop (Bot.mk [] false [])
    (Handler.mk (some []) none) rfl rfl

/-- Claim C10: for a handler with base filters `fs`, `extract_commands`
appends exactly one entry per filter whose `commands` attribute is a
non-empty list, in filter order, all entries sharing the single info string
extracted from the handler's docstring; filters whose attribute is absent,
empty, or not a list contribute nothing. -/
theorem extract_commands_per_filter_entries (bot : Bot) (h : Handler)
    (fs : List BaseFilter) (hbf : h.base_filters = some fs) :
    (extract_commands h bot).commands = bot.commands ++
      (fs.filter isCommandFilter).map
        (fun f => CommandsInfo.mk (cmdList f.commands) (get_handler_info h)) := by
  rw [extract_commands_eq]
  unfold commandsOfHandler
  rw [hbf]

/-- Concrete run of `extract_commands_per_filter_entries`: two command
filters and one commandless filter yield two entries sharing one info. -/
theorem extract_commands_per_filter_entries_witness :
    (extract_commands
      (Handler.mk
        (some [BaseFilter.mk (CmdAttr.listOf ["a".toList]),
               BaseFilter.mk CmdAttr.absent,
               BaseFilter.mk (CmdAttr.listOf ["b".toList, "c".toList])])
        (some "commands_info: shared\n".toList))
      (Bot.mk [] false [])).commands =
    (Bot.mk [] false []).commands ++
      (([BaseFilter.mk (CmdAttr.listOf ["a".toList]),
         BaseFilter.mk CmdAttr.absent,
         BaseFilter.mk (CmdAttr.listOf ["b".toList, "c".toList])].filter isCommandFilter).map
        (fun f => CommandsInfo.mk (cmdList f.commands)
          (get_handler_info (Handler.mk
            (some [BaseFilter.mk (CmdAttr.listOf ["a".toList]),
                   BaseFilter.mk CmdAttr.absent,
                   BaseFilter.mk (CmdAttr.listOf ["b".toList, "c".toList])])
            (some "commands_info: shared\n".toList))))) :=
  extract_commands_per_filter_entries (Bot.mk [] false [])
    (Handler.mk
      (some [BaseFilter.mk (CmdAttr.listOf ["a".toList]),
             BaseFilter.mk CmdAttr.absent,
             BaseFilter.mk (CmdAttr.listOf ["b".toList, "c".toList])])
      (some "commands_info: shared\n".toList))
    [BaseFilter.mk (CmdAttr.listOf ["a".toList]),
     BaseFilter.mk CmdAttr.absent,
     BaseFilter.mk (CmdAttr.listOf ["b".toList, "c".toList])] rfl

lemma foldl_extract (hs : List Handler) (b : Bot) :
    hs.foldl (fun b2 h => extract_commands h b2) b =
      { b with commands := b.commands ++ catMap commandsOfHandler hs } := by
  induction hs generalizing b with
  | nil => simp [catMap]
  | cons h rest ih =>
    rw [List.foldl_cons, extract_commands_eq, ih]
    simp [catMap]

lemma foldl_entries (dp : Dispatcher) (es : List RouterEntry) (b : Bot) :
    es.foldl
      (fun b2 e => (entryHandlers dp e).foldl (fun b3 h => extract_commands h b3) b2) b =
      { b with commands := b.commands ++
          (catMap (fun e => catMap commandsOfHandler (entryHandlers dp e)) es) } := by
  induction es generalizing b with
  | nil => simp [catMap]
  | cons e rest ih =>
    rw [List.foldl_cons, foldl_extract, ih]
    simp [catMap]

lemma prepare_handlers_eq (dp : Dispatcher) (bot : Bot) :
    prepare_handlers dp bot =
      { bot with commands := bot.commands ++
          (catMap (fun e => catMap commandsOfHandler (entryHandlers dp e)) dp.routers) } :=
  foldl_entries dp dp.routers bot

lemma entryHandlers_routers (dp : Dispatcher) (rs : List RouterEntry) (e : RouterEntry) :
    entryHandlers { dp with routers := rs } e = entryHandlers dp e := by
  cases e <;> rfl

lemma ready_eq (dp : Dispatcher) (bot : Bot) :
    ready dp bot =
      ({ dp with routers := dp.routers ++ [RouterEntry.selfRef] },
       { bot with commands := bot.commands ++ blocksOf dp },
       ReadyLog.mk (dp.polling && bot.auto_check_subscriptions)
         (if dp.polling && bot.auto_check_subscriptions then
            check_subscriptions_warnings bot
          else [])) := by
  simp only [ready]
  rw [prepare_handlers_eq]
  simp only [entryHandlers_routers]
  unfold blocksOf
  by_cases hc : dp.polling && bot.auto_check_subscriptions
  · simp [hc, check_subscriptions_warnings]
  · simp [hc]

/-- Claim C2: after readiness the client's command list has received one
block of entries per element of the router collection, in inclusion order
(the Dispatcher itself last), each block listing its router's handlers in
registration order. -/
theorem ready_command_order (dp : Dispatcher) (bot : Bot) :
    (ready dp bot).2.1.commands = bot.commands ++ blocksOf dp := by
  rw [ready_eq]

/-- Claim C1 (evidence of the code bug): running the modelled readiness
sequence twice on a concrete Dispatcher with one command-bearing handler
duplicates the Dispatcher inside its own router collection and duplicates
the command-registry entry, so the state after two runs differs from the
state after one. -/
theorem ready_twice_duplicates :
    ((ready (ready bugDispatcher emptyBot).1 (ready bugDispatcher emptyBot).2.1).1.routers ≠
        (ready bugDispatcher emptyBot).1.routers) ∧
      ((ready (ready bugDispatcher emptyBot).1
          (ready bugDispatcher emptyBot).2.1).2.1.commands ≠
        (ready bugDispatcher emptyBot).2.1.commands) := by
  decide

/-- Claim C6: the subscription query runs during readiness exactly when
polling is enabled and the client's auto-subscription-checking flag is on;
when it runs and at least one subscription exists the emitted warning lists
the subscription URLs, and when none exists no warning is emitted. -/
theorem ready_subscription_check (dp : Dispatcher) (bot : Bot) :
    ((ready dp bot).2.2.subsChecked = (dp.polling && bot.auto_check_subscriptions)) ∧
      ((dp.polling && bot.auto_check_subscriptions) = true → bot.subscriptions ≠ [] →
        (ready dp bot).2.2.warnings = [List.intercalate (", ".toList) bot.subscriptions]) ∧
      (bot.subscriptions = [] → (ready dp bot).2.2.warnings = []) := by
  rw [ready_eq]
  refine ⟨rfl, ?_, ?_⟩
  · intro hc hs
    simp [hc, check_subscriptions_warnings, List.isEmpty_iff, hs]
  · intro hs
    by_cases hc : dp.polling && bot.auto_check_subscriptions <;>
      simp [hc, check_subscriptions_warnings, List.isEmpty_iff, hs]

/-- Concrete run of `ready_subscription_check`: polling on, auto-check on,
one active subscription, so the warning lists that URL. -/
theorem ready_subscription_check_witness :
    (ready (Dispatcher.mk [] [] true) (Bot.mk [] true ["u".toList])).2.2.warnings =
      [List.intercalate (", ".toList) (Bot.mk [] true ["u".toList]).subscriptions] :=
  (ready_subscription_check (Dispatcher.mk [] [] true)
    (Bot.mk [] true ["u".toList])).2.1 rfl (by decide)

lemma registerAll_go {α : Type} (ops : List (RegOp α)) (o i : List α) :
    ops.foldl applyReg (o ++ i) = (outersOf ops).reverse ++ o ++ i ++ innersOf ops := by
  induction ops generalizing o i with
  | nil => simp [outersOf, innersOf]
  | cons op rest ih =>
    cases op with
    | inner m =>
      rw [List.foldl_cons]
      have h1 : applyReg (o ++ i) (RegOp.inner m) = o ++ (i ++ [m]) := by
        simp [applyReg]
      rw [h1, ih o (i ++ [m])]
      simp [outersOf, innersOf, List.filterMap_cons]
    | outer m =>
      rw [List.foldl_cons]
      have h1 : applyReg (o ++ i) (RegOp.outer m) = (m :: o) ++ i := by
        simp [applyReg]
      rw [h1, ih (m :: o) i]
      simp [outersOf, innersOf, List.filterMap_cons]

/-- Claim C5: for every interleaving of `middleware` and `outer_middleware`
registration calls, the composed middleware list is all outer-registered
middlewares followed by all inner-registered ones; concretely, for a
middleware A registered via `middleware` and B via `outer_middleware` (in
either call order), the built chain runs B first, then A, then the
handler. -/
theorem middleware_outer_before_inner {α : Type} (ops : List (RegOp α)) (a b : Nat) :
    registerAll ops = (outersOf ops).reverse ++ innersOf ops ∧
      build_middleware_chain
        (registerAll [RegOp.inner (traceMW a), RegOp.outer (traceMW b)]) traceHandler [] =
        [b, a, 999] ∧
      build_middleware_chain
        (registerAll [RegOp.outer (traceMW b), RegOp.inner (traceMW a)]) traceHandler [] =
        [b, a, 999] := by
  refine ⟨?_, rfl, rfl⟩
  have h := registerAll_go ops ([] : List α) []
  simpa [registerAll] using h

lemma pred_eq_true_iff (c : MemoryContext) (ch u : Int) :
    ((c.chat_id == ch && c.user_id == u) = true) ↔ ctxKey c = (ch, u) := by
  simp [ctxKey, Bool.and_eq_true, Prod.ext_iff]

lemma ctxKey_get_context (s : List MemoryContext) (ch u : Int) :
    ctxKey (get_context s ch u).1 = (ch, u) := by
  unfold get_context
  cases hfind : s.find? (fun c => c.chat_id == ch && c.user_id == u) with
  | none => rfl
  | some c =>
    have hp := List.find?_some hfind
    exact (pred_eq_true_iff c ch u).mp hp

lemma find?_none_iff (s : List MemoryContext) (ch u : Int) :
    s.find? (fun c => c.chat_id == ch && c.user_id == u) = none ↔
      (ch, u) ∉ s.map ctxKey := by
  rw [List.find?_eq_none]
  constructor
  · intro h hmem
    rcases List.mem_map.mp hmem with ⟨c, hc, hkey⟩
    exact h c hc ((pred_eq_true_iff c ch u).mpr hkey)
  · intro h c hc hp
    exact h (List.mem_map.mpr ⟨c, hc, (pred_eq_true_iff c ch u).mp hp⟩)

lemma get_context_store (s : List MemoryContext) (ch u : Int) :
    (get_context s ch u).2 =
      if (ch, u) ∈ s.map ctxKey then s else s ++ [MemoryContext.mk ch u] := by
  unfold get_context
  cases hfind : s.find? (fun c => c.chat_id == ch && c.user_id == u) with
  | none => rw [if_neg ((find?_none_iff s ch u).mp hfind)]
  | some c =>
    have hp := List.find?_some hfind
    have hmem : (ch, u) ∈ s.map ctxKey :=
      List.mem_map.mpr ⟨c, List.mem_of_find?_eq_some hfind,
        (pred_eq_true_iff c ch u).mp hp⟩
    rw [if_pos hmem]

lemma get_context_twice (s : List MemoryContext) (ch u : Int) :
    (get_context ((get_context s ch u).2) ch u).1 = (get_context s ch u).1 ∧
      (get_context ((get_context s ch u).2) ch u).2 = (get_context s ch u).2 := by
  unfold get_context
  cases hfind : s.find? (fun c => c.chat_id == ch && c.user_id == u) with
  | some c => simp [hfind]
  | none =>
    have hnew : (fun c => c.chat_id == ch && c.user_id == u) (MemoryContext.mk ch u) = true := by
      simp
    have h2 : (s ++ [MemoryContext.mk ch u]).find?
        (fun c => c.chat_id == ch && c.user_id == u) = some (MemoryContext.mk ch u) := by
      rw [List.find?_append, hfind]
      simp [List.find?_cons, hnew]
    simp [hfind, h2]

lemma get_context_key_ne (s : List MemoryContext) (ch u ch' u' : Int)
    (hne : (ch, u) ≠ (ch', u')) :
    (get_context ((get_context s ch u).2) ch' u').1 ≠ (get_context s ch u).1 := by
  intro heq
  have h1 := ctxKey_get_context ((get_context s ch u).2) ch' u'
  have h2 := ctxKey_get_context s ch u
  rw [heq, h2] at h1
  exact hne h1

lemma runFrom_invariant (seq : List (Int × Int)) :
    ∀ s : List MemoryContext, (s.map ctxKey).Nodup →
      ((runFrom s seq).map ctxKey).Nodup ∧
        ((runFrom s seq).map ctxKey).toFinset = (s.map ctxKey).toFinset ∪ seq.toFinset := by
  induction seq with
  | nil => intro s hs; simp [runFrom, hs]
  | cons p rest ih =>
    intro s hs
    rw [runFrom, get_context_store]
    by_cases hmem : (p.1, p.2) ∈ s.map ctxKey
    · rw [if_pos hmem]
      rcases ih s hs with ⟨hn, hf⟩
      refine ⟨hn, ?_⟩
      rw [hf, List.toFinset_cons, Finset.union_insert]
      rw [Finset.insert_eq_self.mpr]
      exact Finset.mem_union_left _ (List.mem_toFinset.mpr (by simpa using hmem))
    · rw [if_neg hmem]
      have hs' : ((s ++ [MemoryContext.mk p.1 p.2]).map ctxKey).Nodup := by
        rw [List.map_append, List.nodup_append]
        refine ⟨hs, List.nodup_singleton _, ?_⟩
        intro x hx hx1
        have hx2 : x = (p.1, p.2) := by simpa [ctxKey] using hx1
        exact hmem (hx2 ▸ hx)
      rcases ih _ hs' with ⟨hn, hf⟩
      refine ⟨hn, ?_⟩
      rw [hf, List.map_append, List.toFinset_append]
      have hone : (List.map ctxKey [MemoryContext.mk p.1 p.2]).toFinset = {p} := by
        simp [ctxKey]
      rw [hone, List.toFinset_cons, Finset.union_insert, Finset.insert_eq,
        Finset.union_assoc, ← Finset.union_assoc ((List.map ctxKey s).toFinset),
        Finset.union_comm ((List.map ctxKey s).toFinset) {p}, Finset.union_assoc]

lemma runCalls_card (seq : List (Int × Int)) :
    (runCalls seq).length = seq.toFinset.card := by
  rcases runFrom_invariant seq [] (by simp) with ⟨hn, hf⟩
  unfold runCalls
  have hlen : (runFrom [] seq).length = ((runFrom [] seq).map ctxKey).length := by simp
  rw [hlen, ← List.toFinset_card_of_nodup hn, hf]
  simp

/-- Claim C3: the context store is a lazy bijection from conversation keys
to contexts: a repeated `get_context` call with identical arguments returns
the identical instance and leaves the store unchanged, a call with any
differing argument returns a distinct instance, and after any call sequence
from the empty store the store size equals the number of distinct
(chat, user) pairs seen. -/
theorem context_store_lazy_bijection (s : List MemoryContext) (ch u ch' u' : Int)
    (seq : List (Int × Int)) :
    ((get_context ((get_context s ch u).2) ch u).1 = (get_context s ch u).1 ∧
        (get_context ((get_context s ch u).2) ch u).2 = (get_context s ch u).2) ∧
      ((ch, u) ≠ (ch', u') →
        (get_context ((get_context s ch u).2) ch' u').1 ≠ (get_context s ch u).1) ∧
      (runCalls seq).length = seq.toFinset.card :=
  ⟨get_context_twice s ch u,
   fun hne => get_context_key_ne s ch u ch' u' hne,
   runCalls_card seq⟩

/-- Concrete run of `context_store_lazy_bijection`: the contexts for keys
(1,2) and (3,4) are distinct instances. -/
theorem context_store_lazy_bijection_witness :
    (get_context ((get_context [] 1 2).2) 3 4).1 ≠ (get_context [] 1 2).1 :=
  (context_store_lazy_bijection [] 1 2 3 4 []).2.1 (by decide)

lemma orO_assoc (a b c : Option (List Char)) : orO (orO a b) c = orO a (orO b c) := by
  cases a <;> simp [orO]

lemma orO_none_right (a : Option (List Char)) : orO a none = a := by
  cases a <;> rfl

lemma dictGet_dictSet (d : Dict) (k' v k : List Char) :
    dictGet (dictSet d k' v) k = if k = k' then some v else dictGet d k := by
  induction d with
  | nil =>
    by_cases h : k = k'
    · subst h; simp [dictSet, dictGet]
    · simp [dictSet, dictGet, h, Ne.symm h]
  | cons q rest ih =>
    by_cases hq : q.1 = k'
    · by_cases hk : k = k'
      · subst hk
        simp [dictSet, dictGet, hq]
      · simp [dictSet, dictGet, hq, hk, Ne.symm hk]
    · by_cases hk2 : q.1 = k
      · have hkk : ¬k = k' := fun hh => hq (hk2.trans hh)
        simp [dictSet, dictGet, hq, hk2, hkk]
      · simp [dictSet, dictGet, hq, hk2, ih]

lemma dictGet_none_of_not_mem (m : Dict) (k : List Char) (h : k ∉ m.map Prod.fst) :
    dictGet m k = none := by
  induction m with
  | nil => rfl
  | cons q rest ih =>
    rw [List.map_cons, List.mem_cons, not_or] at h
    rw [dictGet, if_neg (fun hh : q.1 = k => h.1 hh.symm)]
    exact ih h.2

lemma dictGet_dictUpdate (d m : Dict) (hm : (m.map Prod.fst).Nodup) (k : List Char) :
    dictGet (dictUpdate d m) k = orO (dictGet m k) (dictGet d k) := by
  induction m generalizing d with
  | nil => simp [dictUpdate, dictGet, orO]
  | cons q rest ih =>
    rw [List.map_cons, List.nodup_cons] at hm
    have hstep : dictUpdate d (q :: rest) = dictUpdate (dictSet d q.1 q.2) rest := by
      simp [dictUpdate]
    rw [hstep, ih _ hm.2, dictGet_dictSet, dictGet]
    by_cases hk : k = q.1
    · rw [if_pos hk, hk, dictGet_none_of_not_mem rest q.1 hm.1]
      simp [orO]
    · rw [if_neg hk, if_neg (fun hh : q.1 = k => hk hh.symm)]

lemma filters_go_ff {E : Type} (event : E) (f : E → FilterResult)
    (hf : f event = FilterResult.ff) :
    ∀ fs1 : List (E → FilterResult), (∀ g ∈ fs1, g event ≠ FilterResult.ff) →
      ∀ (fs2 : List (E → FilterResult)) (d : Dict),
        filters_go event (fs1 ++ f :: fs2) d = none := by
  intro fs1
  induction fs1 with
  | nil =>
    intro _ fs2 d
    simp [filters_go, hf]
  | cons g rest ih =>
    intro h1 fs2 d
    have hg : g event ≠ FilterResult.ff := h1 g (List.mem_cons_self g rest)
    have hrest : ∀ g2 ∈ rest, g2 event ≠ FilterResult.ff :=
      fun g2 h => h1 g2 (List.mem_cons_of_mem g h)
    cases hge : g event with
    | ff => exact absurd hge hg
    | tt =>
      rw [List.cons_append, filters_go, hge]
      exact ih hrest fs2 d
    | data m =>
      rw [List.cons_append, filters_go, hge]
      exact ih hrest fs2 (dictUpdate d m)

lemma filters_go_ok {E : Type} (event : E) :
    ∀ fs : List (E → FilterResult), (∀ g ∈ fs, g event ≠ FilterResult.ff) →
      (∀ m ∈ mappingsOf event fs, (m.map Prod.fst).Nodup) →
      ∀ d : Dict, ∃ d2, filters_go event fs d = some d2 ∧
        ∀ k, dictGet d2 k = orO (lastWins (mappingsOf event fs) k) (dictGet d k) := by
  intro fs
  induction fs with
  | nil =>
    intro _ _ d
    exact ⟨d, rfl, fun k => by simp [mappingsOf, lastWins, orO]⟩
  | cons f rest ih =>
    intro hff hnd d
    have hfrest : ∀ g ∈ rest, g event ≠ FilterResult.ff :=
      fun g h => hff g (List.mem_cons_of_mem f h)
    cases hfe : f event with
    | ff => exact absurd hfe (hff f (List.mem_cons_self f rest))
    | tt =>
      have hm : mappingsOf event (f :: rest) = mappingsOf event rest := by
        simp [mappingsOf, List.filterMap_cons, hfe]
      have hnd2 : ∀ m ∈ mappingsOf event rest, (m.map Prod.fst).Nodup := by
        rw [← hm]; exact hnd
      rcases ih hfrest hnd2 d with ⟨d2, hgo, hget⟩
      refine ⟨d2, ?_, ?_⟩
      · rw [filters_go, hfe]; exact hgo
      · rw [hm]; exact hget
    | data m =>
      have hm : mappingsOf event (f :: rest) = m :: mappingsOf event rest := by
        simp [mappingsOf, List.filterMap_cons, hfe]
      have hmnd : (m.map Prod.fst).Nodup := by
        refine hnd m ?_
        rw [hm]
        exact List.mem_cons_self m _
      have hnd2 : ∀ m2 ∈ mappingsOf event rest, (m2.map Prod.fst).Nodup := by
        intro m2 h2
        refine hnd m2 ?_
        rw [hm]
        exact List.mem_cons_of_mem m h2
      rcases ih hfrest hnd2 (dictUpdate d m) with ⟨d2, hgo, hget⟩
      refine ⟨d2, ?_, ?_⟩
      · rw [filters_go, hfe]; exact hgo
      · intro k
        rw [hget k, dictGet_dictUpdate d m hmnd k, hm, lastWins]
        exact (orO_assoc _ _ _).symm

/-- Claim C4: evaluating a filter chain returns `False` as soon as any
filter returns boolean false — the filters after it play no role — and
otherwise returns the merge of all mappings the filters returned, in chain
order, boolean-true results contributing nothing and later mappings
overriding earlier keys on conflict. -/
theorem filter_chain_short_circuit_and_merge {E : Type} (event : E) :
    (∀ (fs1 fs2 : List (E → FilterResult)) (f : E → FilterResult),
        (∀ g ∈ fs1, g event ≠ FilterResult.ff) → f event = FilterResult.ff →
        process_base_filters event (fs1 ++ f :: fs2) = none) ∧
      (∀ fs : List (E → FilterResult), (∀ g ∈ fs, g event ≠ FilterResult.ff) →
        (∀ m ∈ mappingsOf event fs, (m.map Prod.fst).Nodup) →
        ∃ d, process_base_filters event fs = some d ∧
          ∀ k, dictGet d k = lastWins (mappingsOf event fs) k) := by
  constructor
  · intro fs1 fs2 f h1 hf
    exact filters_go_ff event f hf fs1 h1 fs2 []
  · intro fs hff hnd
    rcases filters_go_ok event fs hff hnd [] with ⟨d, hgo, hget⟩
    refine ⟨d, hgo, fun k => ?_⟩
    rw [hget k]
    rw [show dictGet [] k = none from rfl, orO_none_right]

/-- Concrete run of `filter_chain_short_circuit_and_merge`: a chain with two
mapping filters and a boolean-true filter merges to last-write-wins data. -/
theorem filter_chain_short_circuit_and_merge_witness :
    ∃ d, process_base_filters () fsW = some d ∧
      ∀ k, dictGet d k = lastWins (mappingsOf () fsW) k :=
  (filter_chain_short_circuit_and_merge ()).2 fsW (by decide) (by decide)

lemma label_decomp : labelChars = labelInit ++ [':'] := by decide

lemma labelChars_len : labelChars.length = 14 := by decide

lemma labelInit_len : labelInit.length = 13 := by decide

lemma beginsWith_append_self (l s : List Char) : beginsWith l (l ++ s) = true := by
  induction l with
  | nil => rfl
  | cons c cs ih => simp [beginsWith, ih]

lemma beginsWith_iff_take (p : List Char) :
    ∀ x : List Char, beginsWith p x = true ↔ x.take p.length = p := by
  induction p with
  | nil => intro x; simp [beginsWith]
  | cons a ps ih =>
    intro x
    cases x with
    | nil => simp [beginsWith]
    | cons c cs =>
      by_cases hac : a = c
      · subst hac
        simp [beginsWith, ih]
      · simp [beginsWith, hac]
        exact fun hca _ => hac hca.symm

lemma findAfter_here (needle s : List Char) (h : needle ≠ []) :
    findAfter needle (needle ++ s) = some s := by
  cases needle with
  | nil => exact absurd rfl h
  | cons a ps =>
    rw [List.cons_append, findAfter]
    rw [if_pos (by simpa using beginsWith_append_self (a :: ps) s)]
    rw [← List.cons_append, List.drop_left]

lemma findAfter_of_first (s : List Char) :
    ∀ pre : List Char, occursIn labelChars (pre ++ labelInit) = false →
      findAfter labelChars (pre ++ (labelChars ++ s)) = some s := by
  intro pre
  induction pre with
  | nil =>
    intro _
    rw [List.nil_append]
    exact findAfter_here labelChars s (by decide)
  | cons p ps ih =>
    intro hocc
    rw [List.cons_append] at hocc ⊢
    rw [occursIn, Bool.or_eq_false_iff] at hocc
    have hsplit : p :: (ps ++ (labelChars ++ s)) =
        (p :: (ps ++ labelInit)) ++ (':' :: s) := by
      simp [label_decomp, List.append_assoc]
    have hlen : labelChars.length ≤ (p :: (ps ++ labelInit)).length := by
      rw [labelChars_len, List.length_cons, List.length_append, labelInit_len]
      omega
    have hbw : beginsWith labelChars (p :: (ps ++ (labelChars ++ s))) = false := by
      cases hb : beginsWith labelChars (p :: (ps ++ (labelChars ++ s))) with
      | false => rfl
      | true =>
        rw [beginsWith_iff_take, hsplit, List.take_append_of_le_length hlen] at hb
        have hb2 : beginsWith labelChars (p :: (ps ++ labelInit)) = true :=
          (beginsWith_iff_take labelChars (p :: (ps ++ labelInit))).mpr hb
        rw [hocc.1] at hb2
        exact absurd hb2 (by simp)
    rw [findAfter, if_neg (by simp [hbw])]
    exact ih hocc.2

lemma dropWhile_idem (p : Char → Bool) (l : List Char) :
    List.dropWhile p (List.dropWhile p l) = List.dropWhile p l := by
  induction l with
  | nil => rfl
  | cons c cs ih =>
    by_cases h : p c
    · simp [List.dropWhile_cons, h, ih]
    · simp [List.dropWhile_cons, h]

lemma get_handler_info_of_line (pre text post : List Char) (h : Handler)
    (hocc : occursIn labelChars (pre ++ labelInit) = false)
    (hnl : ∀ c ∈ text, ¬(c = '\n'))
    (hne : pyStrip text ≠ [])
    (hdoc : h.doc = some (pre ++ (labelChars ++ (text ++ '\n' :: post)))) :
    get_handler_info h = some (pyStrip text) := by
  have hdw : List.dropWhile isPySpace text ≠ [] := by
    intro hz
    apply hne
    unfold pyStrip trimLeft
    rw [hz]
    rfl
  have hdne : pre ++ (labelChars ++ (text ++ '\n' :: post)) ≠ [] := by
    simp [label_decomp]
  have hfa := findAfter_of_first (text ++ '\n' :: post) pre hocc
  have h1 : List.dropWhile isPySpace (text ++ '\n' :: post) =
      List.dropWhile isPySpace text ++ '\n' :: post := by
    rw [List.dropWhile_append,
      if_neg (fun hcontra => hdw (List.isEmpty_iff.mp hcontra))]
  have h2 : List.takeWhile (fun c => !(c = '\n'))
      (List.dropWhile isPySpace text ++ '\n' :: post) =
      List.dropWhile isPySpace text := by
    rw [List.takeWhile_append_of_pos (fun a ha => by
      simpa using hnl a ((List.dropWhile_sublist isPySpace).subset ha))]
    simp [List.takeWhile_cons]
  have h3 : pyStrip (List.dropWhile isPySpace text) = pyStrip text := by
    unfold pyStrip trimLeft
    rw [dropWhile_idem]
  simp only [get_handler_info, hdoc]
  rw [if_neg hdne, hfa]
  simp only [h1, h2, h3]
  rw [if_neg hne]

/-- Claim C7: for a handler whose docstring carries the first occurrence of
the label `commands_info:` followed on the same line by a non-blank text,
and whose base filters carry the command list `["start"]`, readiness adds
exactly one entry with commands `["start"]` and info the text after the
label up to the end of that line, stripped of surrounding whitespace. -/
theorem readiness_single_command_entry (bot : Bot) (pre text post : List Char)
    (h : Handler)
    (hocc : occursIn labelChars (pre ++ labelInit) = false)
    (hnl : ∀ c ∈ text, ¬(c = '\n'))
    (hne : pyStrip text ≠ [])
    (hbf : h.base_filters = some [BaseFilter.mk (CmdAttr.listOf [startCmd])])
    (hdoc : h.doc = some (pre ++ (labelChars ++ (text ++ '\n' :: post)))) :
    (ready (singleHandlerDispatcher h) bot).2.1.commands =
      bot.commands ++ [CommandsInfo.mk [startCmd] (some (pyStrip text))] := by
  have hb : (ready (singleHandlerDispatcher h) bot).2.1.commands =
      bot.commands ++ blocksOf (singleHandlerDispatcher h) := by
    rw [ready_eq]
  have hinfo := get_handler_info_of_line pre text post h hocc hnl hne hdoc
  have hch : commandsOfHandler h = [CommandsInfo.mk [startCmd] (some (pyStrip text))] := by
    unfold commandsOfHandler
    rw [hbf, hinfo]
    simp [isCommandFilter, cmdList, startCmd]
  rw [hb]
  unfold blocksOf singleHandlerDispatcher
  simp [catMap, entryHandlers, hch]

/-- Concrete run of `readiness_single_command_entry` on the spec's example
docstring `commands_info: Запустить бота`. -/
theorem readiness_single_command_entry_witness :
    (ready (singleHandlerDispatcher exHandler) emptyBot).2.1.commands =
      emptyBot.commands ++
        [CommandsInfo.mk [startCmd] (some (pyStrip " Запустить бота".toList))] :=
  readiness_single_command_entry emptyBot "\n        ".toList " Запустить бота".toList
    "        ".toList exHandler (by decide) (by decide) (by decide) rfl rfl

end MaxApi
